import Mathlib

/-!
Verification of the go-stark repository: the finite-field wrapper
(src/algebra/ff.go), the Fiat-Shamir channel, the composition-polynomial
step of the prover (src/unnamed/part_000 and the tests in
src/unnamed/part_001), and the prover's channel discipline.

The FiniteField / FieldElement wrapper is embedded from src/algebra/ff.go.
The big-integer helpers of the algebra package (Mod, ModAdd, ModSub, ModMul,
ModDiv, ModExp, ModInv, FromInt64, Cmp), the poly package and the channel
are code of this repository that is not under src/ (only their callers
are); each such definition is modelled from the spec and marked as such in
its doc comment.  Go big.Int values are embedded as Int; byte strings as
List Nat.
-/

namespace algebra

/-- Error kinds of the field layer, named by the spec (section 7):
InvalidField for arithmetic between incompatible moduli, NotInvertible for
division by zero or inversion of zero. -/
inductive FFError
  | InvalidField
  | NotInvertible
deriving DecidableEq

/-- FiniteField represents a field over modulus q (src/algebra/ff.go). -/
structure FiniteField where
  q : Int
deriving DecidableEq

/-- FieldElement is an integer paired with its field (src/algebra/ff.go). -/
structure FieldElement where
  n : Int
  p : FiniteField
deriving DecidableEq

/-- Modelled from the spec: algebra.Mod (Go big.Int Euclidean remainder) is
not under src/; the spec requires results reduced into [0, q).  Lean's
Int.emod agrees with Go's big.Int.Mod for a positive modulus. -/
def Mod (x q : Int) : Int := x % q

/-- Modelled from the spec: algebra.ModAdd (modular addition) is not under
src/. -/
def ModAdd (a b q : Int) : Int := (a + b) % q

/-- Modelled from the spec: algebra.ModSub (modular subtraction) is not
under src/. -/
def ModSub (a b q : Int) : Int := (a - b) % q

/-- Modelled from the spec: algebra.ModMul (modular multiplication) is not
under src/. -/
def ModMul (a b q : Int) : Int := (a * b) % q

/-- Modelled from the spec: algebra.ModExp (square-and-multiply modular
exponentiation) is not under src/; modelled as a^e mod q with a natural
exponent. -/
def ModExp (a : Int) (e : Nat) (q : Int) : Int := (a ^ e) % q

/-- Modelled from the spec: algebra.FromInt64 is not under src/; it lifts a
machine integer to a big integer. -/
def FromInt64 (x : Int) : Int := x

/-- Modelled from the spec: algebra.Cmp (Go big.Int.Cmp) is not under src/;
it returns -1, 0 or 1. -/
def Cmp (a b : Int) : Int := if a < b then -1 else if b < a then 1 else 0

/-- Extended Euclidean algorithm with explicit fuel, returning
(gcd a b, x, y) with x*a + y*b = gcd a b once the fuel covers the
recursion depth.  Used to model algebra.ModInv. -/
def egcdFuel : Nat → Nat → Nat → Nat × Int × Int
  | 0, a, _ => (a, 1, 0)
  | fuel + 1, a, b =>
    if b = 0 then (a, 1, 0)
    else
      let r := egcdFuel fuel b (a % b)
      (r.1, r.2.2, r.2.1 - ((a / b : Nat) : Int) * r.2.2)

/-- Modelled from the spec: algebra.ModInv (modular inverse via the extended
Euclidean algorithm) is not under src/; per the spec it fails with
NotInvertible when the element has no inverse (in particular on zero). -/
def ModInv (a q : Int) : Except FFError Int :=
  if (egcdFuel (q.toNat + 2) (a % q).toNat q.toNat).1 = 1 then
    Except.ok ((egcdFuel (q.toNat + 2) (a % q).toNat q.toNat).2.1 % q)
  else
    Except.error FFError.NotInvertible

/-- Modelled from the spec: algebra.ModDiv is not under src/; per the spec
Div(a,b) = a * b^-1, failing with NotInvertible on a non-invertible
divisor. -/
def ModDiv (a b q : Int) : Except FFError Int :=
  (ModInv b q).map fun bi => ModMul a bi q

/-- Zero returns the 0 on Fq (src/algebra/ff.go). -/
def FiniteField.Zero (ff : FiniteField) : FieldElement := ⟨0, ff⟩

/-- One returns the 1 on Fq (src/algebra/ff.go). -/
def FiniteField.One (ff : FiniteField) : FieldElement := ⟨1, ff⟩

/-- Modulus returns the finite-field modulus (src/algebra/ff.go). -/
def FiniteField.Modulus (ff : FiniteField) : Int := ff.q

/-- NewFieldElement returns a new field element with the value reduced by
the field modulus (src/algebra/ff.go). -/
def FiniteField.NewFieldElement (ff : FiniteField) (x : Int) : FieldElement :=
  ⟨Mod x ff.q, ff⟩

/-- NewFieldElementFromInt64 takes an int64 parameter (src/algebra/ff.go). -/
def FiniteField.NewFieldElementFromInt64 (ff : FiniteField) (x : Int) : FieldElement :=
  ff.NewFieldElement (FromInt64 x)

/-- Add sums two field elements (src/algebra/ff.go): the operand values are
combined by ModAdd under the receiver field's modulus; the operands' own
moduli are never inspected. -/
def FiniteField.Add (ff : FiniteField) (x y : FieldElement) : FieldElement :=
  ff.NewFieldElement (ModAdd x.n y.n ff.q)

/-- Sub subtracts two field elements (src/algebra/ff.go). -/
def FiniteField.Sub (ff : FiniteField) (x y : FieldElement) : FieldElement :=
  ff.NewFieldElement (ModSub x.n y.n ff.q)

/-- Mul multiplies two field elements (src/algebra/ff.go). -/
def FiniteField.Mul (ff : FiniteField) (x y : FieldElement) : FieldElement :=
  ff.NewFieldElement (ModMul x.n y.n ff.q)

/-- Div divides two field elements (src/algebra/ff.go); the failure channel
comes from ModDiv. -/
def FiniteField.Div (ff : FiniteField) (x y : FieldElement) : Except FFError FieldElement :=
  (ModDiv x.n y.n ff.q).map ff.NewFieldElement

/-- New takes a number and the field's order (src/algebra/ff.go): it
returns an error when Cmp(n,p) = 1 (n greater than p) or Cmp(n,0) = -1
(n negative), and otherwise the element ⟨n, Fp⟩ unreduced. -/
def New (n p : Int) : Except String FieldElement :=
  if Cmp n p = 1 ∨ Cmp n 0 = -1 then Except.error "n not in the F"
  else Except.ok ⟨n, ⟨p⟩⟩

/-- Neg returns -1*fe (src/algebra/ff.go): the negated value reduced by the
element's own field modulus. -/
def FieldElement.Neg (fe : FieldElement) : FieldElement :=
  ⟨Mod (-fe.n) fe.p.q, fe.p⟩

/-- Exp computes fe^e (src/algebra/ff.go) through ModExp. -/
def FieldElement.Exp (fe : FieldElement) (e : Nat) : FieldElement :=
  ⟨ModExp fe.n e fe.p.q, fe.p⟩

/-- Inv computes the multiplicative inverse (src/algebra/ff.go) through
ModInv; the failure channel comes from ModInv. -/
def FieldElement.Inv (fe : FieldElement) : Except FFError FieldElement :=
  (ModInv fe.n fe.p.q).map fun r => ⟨r, fe.p⟩

/-- Go big.Int.SetBytes: big-endian bytes to a natural number. -/
def bytesToNat (buf : List Nat) : Nat :=
  buf.foldl (fun acc b => acc * 256 + b) 0

/-- Bit length with explicit fuel (helper for bitLen). -/
def bitLenAux : Nat → Nat → Nat
  | 0, _ => 0
  | fuel + 1, n => if n = 0 then 0 else bitLenAux fuel (n / 2) + 1

/-- Go big.Int.BitLen: the length of n in bits, 0 for n = 0. -/
def bitLen (n : Nat) : Nat := bitLenAux (n + 1) n

/-- Rand returns a random field element (src/algebra/ff.go): the source
reads BitLen(q)/8 bytes from crypto/rand into buf and stores SetBytes(buf)
WITHOUT reducing it mod q.  The bytes read are passed here as the argument
buf; a faithful call supplies buf with buf.length = bitLen q / 8. -/
def FiniteField.Rand (ff : FiniteField) (buf : List Nat) : FieldElement :=
  ⟨(bytesToNat buf : Int), ff⟩

/-- A field element stores a value already reduced into [0, q). -/
def reducedIn (ff : FiniteField) (fe : FieldElement) : Prop :=
  0 ≤ fe.n ∧ fe.n < ff.q

end algebra

namespace poly

/-- Modelled from the spec: the poly package is not under src/.  A
polynomial is a dense little-endian coefficient list over Fq; the canonical
form has no trailing zero coefficients, with the zero polynomial
represented by the single coefficient [0]. -/
abbrev Polynomial := List Int

/-- Modelled from the spec: canonicalization trims trailing zero
coefficients; the empty result is replaced by the zero polynomial [0]. -/
def trim (l : List Int) : List Int :=
  let r := (l.reverse.dropWhile fun c => c == 0).reverse
  if r = [] then [0] else r

/-- Modelled from the spec: coefficient-wise addition with every
coefficient reduced mod q. -/
def addCoeffs (q : Int) : List Int → List Int → List Int
  | [], ys => ys.map fun y => y % q
  | x :: xs, [] => (x % q) :: xs.map fun x' => x' % q
  | x :: xs, y :: ys => ((x + y) % q) :: addCoeffs q xs ys

/-- Modelled from the spec: schoolbook convolution with every coefficient
reduced mod q. -/
def mulCoeffs (q : Int) : List Int → List Int → List Int
  | [], _ => []
  | x :: xs, ys => addCoeffs q (ys.map fun y => (x * y) % q) (0 :: mulCoeffs q xs ys)

/-- Modelled from the spec: Polynomial.Add reduces coefficient-wise mod the
modulus and canonicalizes. -/
def Polynomial.Add (p r : Polynomial) (q : Int) : Polynomial :=
  trim (addCoeffs q p r)

/-- Modelled from the spec: Polynomial.Mul is the schoolbook product mod
the modulus, canonicalized. -/
def Polynomial.Mul (p r : Polynomial) (q : Int) : Polynomial :=
  trim (mulCoeffs q p r)

/-- Modelled from the spec: poly.NewPolynomialInts on a single integer
yields the corresponding constant polynomial. -/
def NewPolynomialInts (c : Int) : Polynomial := [c]

/-- Modelled from the spec: poly.NewPolynomialBigInt yields the degree-0
constant polynomial. -/
def NewPolynomialBigInt (c : Int) : Polynomial := [c]

/-- Every coefficient of the list lies in [0, q). -/
def Reduced (q : Int) (p : List Int) : Prop := ∀ c ∈ p, 0 ≤ c ∧ c < q

end poly

namespace stark

/-- Modelled from the spec: the channel's proof log is an ordered sequence
of human-readable entries; the Go source stores hex or decimal strings, and
the logged data itself is modelled here. -/
inductive ProofEntry
  | bytes (b : List Nat)
  | value (v : Int)
deriving DecidableEq

/-- Modelled from the spec: the Fiat-Shamir channel (not under src/) owns a
rolling 32-byte state and an ordered proof log. -/
structure Channel where
  State : List Nat
  Proof : List ProofEntry
deriving DecidableEq

/-- Modelled from the spec: NewChannel starts from the all-zero 32-byte
state with an empty log. -/
def NewChannel : Channel := ⟨List.replicate 32 0, []⟩

/-- Modelled from the spec: Send(bytes) sets state to SHA-256(state ||
bytes) and appends the bytes to the log.  SHA-256 is abstracted as the
function parameter H. -/
def Channel.Send (H : List Nat → List Nat) (ch : Channel) (b : List Nat) : Channel :=
  ⟨H (ch.State ++ b), ch.Proof ++ [ProofEntry.bytes b]⟩

/-- Modelled from the spec: RandFE (ReceiveRandomFieldElement) derives the
next state from the current one by SHA-256 (abstracted as H, its tag
absorbed into H), interprets it as an integer reduced mod q, logs the drawn
value and advances the state to the derived hash. -/
def Channel.RandFE (H : List Nat → List Nat) (ch : Channel) (q : Int) : Int × Channel :=
  let h := H ch.State
  let v := (algebra.bytesToNat h : Int) % q
  (v, ⟨h, ch.Proof ++ [ProofEntry.value v]⟩)

/-- Modelled from the spec: ReceiveRandomInt uses the same derivation and
returns min + (value mod (max - min + 1)). -/
def Channel.ReceiveRandomInt (H : List Nat → List Nat) (ch : Channel) (mn mx : Int) : Int × Channel :=
  let h := H ch.State
  let v := mn + (algebra.bytesToNat h : Int) % (mx - mn + 1)
  (v, ⟨h, ch.Proof ++ [ProofEntry.value v]⟩)

/-- A call against the channel: the argument of a Send, or the bounds of a
Receive. -/
inductive ChannelCall
  | send (b : List Nat)
  | receiveFE (q : Int)
  | receiveInt (mn mx : Int)

/-- Drive a channel through a sequence of calls, collecting every squeezed
value in order. -/
def runCalls (H : List Nat → List Nat) (ch : Channel) : List ChannelCall → Channel × List Int
  | [] => (ch, [])
  | ChannelCall.send b :: cs => runCalls H (ch.Send H b) cs
  | ChannelCall.receiveFE q :: cs =>
    let r := ch.RandFE H q
    let rest := runCalls H r.2 cs
    (rest.1, r.1 :: rest.2)
  | ChannelCall.receiveInt mn mx :: cs =>
    let r := ch.ReceiveRandomInt H mn mx
    let rest := runCalls H r.2 cs
    (rest.1, r.1 :: rest.2)

/-- Embedded from src/unnamed/part_000 (main) lines 60-65: the composition
polynomial starts from NewPolynomialInts(0) and, for i = 0,1,2, squeezes a
field element from the channel, multiplies constraint i by the
corresponding constant polynomial and accumulates the sum, all mod the
prime-field modulus. -/
def compositionLoop (H : List Nat → List Nat) (q : Int)
    (constraints : List poly.Polynomial) (ch : Channel) : poly.Polynomial × Channel :=
  constraints.foldl
    (fun acc c =>
      let r := Channel.RandFE H acc.2 q
      let comb := poly.Polynomial.Mul c (poly.NewPolynomialBigInt r.1) q
      (poly.Polynomial.Add acc.1 comb q, r.2))
    (poly.NewPolynomialInts 0, ch)

/-- One channel-facing event of the prover pipeline: a Send of a tagged
byte string (tag 0 = EvaluationRoot, tag 1 = compositionPolyEvalsRoot R0,
tag 2 = a later FRI layer root) or the squeeze of a field element. -/
inductive ChEvent
  | send (tag : Nat)
  | squeezeFE
deriving DecidableEq

/-- Modelled from the spec: the channel events of GenerateFRICommitment
(section 4.G), whose channel argument arrives with R0 already absorbed:
each folding iteration first squeezes a folding beta (step 1) and then
Sends the next layer's Merkle root (step 5); R0 itself is never Sent by
the commit loop. -/
def friCommitChannelEvents : Nat → List ChEvent
  | 0 => []
  | k + 1 => ChEvent.squeezeFE :: ChEvent.send 2 :: friCommitChannelEvents k

/-- Embedded from src/unnamed/part_000 (main): the channel calls issued
before GenerateFRICommitment runs are Send(EvaluationRoot) followed by the
three composition squeezes; main computes compositionPolyEvalsRoot but
never Sends it. -/
def mainPreFriEvents : List ChEvent :=
  [ChEvent.send 0, ChEvent.squeezeFE, ChEvent.squeezeFE, ChEvent.squeezeFE]

/-- The full channel-event trace of the main prover pipeline
(src/unnamed/part_000) with the given number of FRI folds. -/
def mainChannelEvents (folds : Nat) : List ChEvent :=
  mainPreFriEvents ++ friCommitChannelEvents folds

/-- Embedded from src/unnamed/part_001 (TestZKGen/TestProve): the tests
issue the same calls as main but additionally Send(compositionPolyEvalsRoot)
before calling GenerateFRICommitment. -/
def testPreFriEvents : List ChEvent :=
  [ChEvent.send 0, ChEvent.squeezeFE, ChEvent.squeezeFE, ChEvent.squeezeFE, ChEvent.send 1]

/-- The full channel-event trace of the test prover pipeline
(src/unnamed/part_001) with the given number of FRI folds. -/
def testChannelEvents (folds : Nat) : List ChEvent :=
  testPreFriEvents ++ friCommitChannelEvents folds

end stark

namespace algebra

/-- Both bounds of an Euclidean remainder by a positive modulus. -/
theorem emod_bounds (x q : Int) (hq : 0 < q) : 0 ≤ x % q ∧ x % q < q :=
  ⟨Int.emod_nonneg x (by omega), Int.emod_lt_of_pos x hq⟩

/-- With enough fuel the first component of egcdFuel is the gcd. -/
theorem egcdFuel_fst (fuel : Nat) : ∀ a b : Nat, b ≤ fuel → (egcdFuel fuel a b).1 = Nat.gcd a b := by
  induction fuel with
  | zero =>
    intro a b h
    have hb : b = 0 := Nat.le_zero.mp h
    subst hb
    simp [egcdFuel]
  | succ f ih =>
    intro a b h
    by_cases hb : b = 0
    · subst hb
      simp [egcdFuel]
    · have hlt : a % b < b := Nat.mod_lt a (Nat.pos_of_ne_zero hb)
      have hle : a % b ≤ f := Nat.lt_succ_iff.mp (Nat.lt_of_lt_of_le hlt h)
      simp only [egcdFuel, if_neg hb]
      rw [ih b (a % b) hle]
      rw [Nat.gcd_comm b (a % b), ← Nat.gcd_rec b a, Nat.gcd_comm b a]

/-- ModInv of zero fails with NotInvertible for any modulus above one. -/
theorem ModInv_zero {q : Int} (hq : 1 < q) : ModInv 0 q = Except.error FFError.NotInvertible := by
  have h0 : ((0 : Int) % q) = 0 := Int.zero_emod q
  have hfst : (egcdFuel (q.toNat + 2) ((0 : Int) % q).toNat q.toNat).1 = q.toNat := by
    rw [h0]
    have := egcdFuel_fst (q.toNat + 2) 0 q.toNat (by omega)
    simpa [Nat.gcd_zero_left] using this
  have hcond : ¬ (egcdFuel (q.toNat + 2) ((0 : Int) % q).toNat q.toNat).1 = 1 := by
    rw [hfst]; omega
  unfold ModInv
  rw [if_neg hcond]

/-- A successful ModInv result is reduced into [0, q). -/
theorem ModInv_ok_bound {a q v : Int} (hq : 0 < q) (h : ModInv a q = Except.ok v) :
    0 ≤ v ∧ v < q := by
  unfold ModInv at h
  split at h
  · cases h
    exact emod_bounds _ q hq
  · cases h

/-- ModInv succeeds on any integer that is a nonzero residue of a prime
modulus. -/
theorem ModInv_pos_ok {p : Nat} (hp : p.Prime) {a : Int} (h0 : 0 < a) (h1 : a < (p : Int)) :
    ∃ v, ModInv a (p : Int) = Except.ok v := by
  have hmod : a % (p : Int) = a := Int.emod_eq_of_lt (le_of_lt h0) h1
  have htn : ((p : Int)).toNat = p := Int.toNat_natCast p
  have hbounds : 0 < a.toNat ∧ a.toNat < p := by omega
  have hnd : ¬ p ∣ a.toNat := Nat.not_dvd_of_pos_of_lt hbounds.1 hbounds.2
  have hco : Nat.Coprime p a.toNat := (Nat.Prime.coprime_iff_not_dvd hp).mpr hnd
  have hgcd : Nat.gcd a.toNat p = 1 := by
    rw [Nat.gcd_comm]; exact hco
  have hfst : (egcdFuel (((p : Int)).toNat + 2) (a % (p : Int)).toNat ((p : Int)).toNat).1 = 1 := by
    rw [hmod, htn]
    rw [egcdFuel_fst (p + 2) a.toNat p (by omega)]
    exact hgcd
  refine ⟨(egcdFuel (((p : Int)).toNat + 2) (a % (p : Int)).toNat ((p : Int)).toNat).2.1 % (p : Int), ?_⟩
  unfold ModInv
  rw [if_pos hfst]

end algebra

/-- C9 counterexample: the constructor New accepts n = p, so it succeeds at
an input outside [0, p): New(5, 5) returns the element 5 of F5 with no
error. -/
theorem New_accepts_modulus_cex :
    algebra.New 5 5 = Except.ok ⟨5, ⟨5⟩⟩ ∧ ¬ ((5 : Int) < 5) :=
  ⟨rfl, by decide⟩

/-- C9 (amended): New(n, p) succeeds exactly when 0 ≤ n ≤ p (the bound n = p
included), returning the unreduced element ⟨n, Fp⟩, and returns the error
"n not in the F" exactly when n < 0 or n > p. -/
theorem New_ok_iff (n p : Int) :
    ((∃ fe, algebra.New n p = Except.ok fe) ↔ (0 ≤ n ∧ n ≤ p)) ∧
    (algebra.New n p = Except.ok ⟨n, ⟨p⟩⟩ ∨
      algebra.New n p = Except.error "n not in the F") := by
  have hC : (algebra.Cmp n p = 1 ∨ algebra.Cmp n 0 = -1) ↔ (p < n ∨ n < 0) := by
    unfold algebra.Cmp
    split_ifs <;> simp <;> omega
  by_cases h : algebra.Cmp n p = 1 ∨ algebra.Cmp n 0 = -1
  · have hpn : p < n ∨ n < 0 := hC.mp h
    constructor
    · simp [algebra.New, h]
      omega
    · right
      simp [algebra.New, h]
  · have hpn : ¬ (p < n ∨ n < 0) := fun hc => h (hC.mpr hc)
    constructor
    · simp [algebra.New, h]
      omega
    · left
      simp [algebra.New, h]

/-- C1 counterexample: Rand does not reduce its sample.  For the prime
modulus q = 251 (bit length 8, so the source reads one random byte) the
sampled byte 254 is stored as the field-element value 254, which is not in
[0, 251). -/
theorem Rand_unreduced_cex :
    algebra.FiniteField.Rand ⟨251⟩ [254] = ⟨254, ⟨251⟩⟩ ∧
    [254].length = algebra.bitLen 251 / 8 ∧
    ¬ (algebra.FiniteField.Rand ⟨251⟩ [254]).n < (251 : Int) :=
  ⟨rfl, by decide, by decide⟩

/-- C1 (amended): for every field with modulus q at least 2, every
FieldElement produced by Zero, One, NewFieldElement, Add, Sub, Mul, Div,
Neg, Exp and Inv stores an integer already reduced into [0, q); Rand is the
exception, storing its raw byte sample unreduced. -/
theorem field_ops_reduced (ff : algebra.FiniteField) (hq : 2 ≤ ff.q) (a : Int) (e : Nat)
    (x y : algebra.FieldElement) :
    algebra.reducedIn ff ff.Zero ∧
    algebra.reducedIn ff ff.One ∧
    algebra.reducedIn ff (ff.NewFieldElement a) ∧
    algebra.reducedIn ff (ff.Add x y) ∧
    algebra.reducedIn ff (ff.Sub x y) ∧
    algebra.reducedIn ff (ff.Mul x y) ∧
    (∀ r, ff.Div x y = Except.ok r → algebra.reducedIn ff r) ∧
    algebra.reducedIn ff (algebra.FieldElement.Neg ⟨a, ff⟩) ∧
    algebra.reducedIn ff (algebra.FieldElement.Exp ⟨a, ff⟩ e) ∧
    (∀ s, algebra.FieldElement.Inv ⟨a, ff⟩ = Except.ok s → algebra.reducedIn ff s) := by
  have hq0 : 0 < ff.q := by omega
  have hb : ∀ z : Int, algebra.reducedIn ff (ff.NewFieldElement z) := fun z =>
    algebra.emod_bounds z ff.q hq0
  refine ⟨⟨le_refl 0, hq0⟩, ⟨zero_le_one, lt_of_lt_of_le one_lt_two hq⟩,
    hb a, hb _, hb _, hb _, ?_, ?_, ?_, ?_⟩
  · intro r hr
    cases hmd : algebra.ModDiv x.n y.n ff.q with
    | ok v =>
      simp only [algebra.FiniteField.Div, hmd, Except.map] at hr
      cases hr
      exact hb v
    | error e' =>
      simp only [algebra.FiniteField.Div, hmd, Except.map] at hr
      cases hr
  · exact algebra.emod_bounds _ ff.q hq0
  · exact algebra.emod_bounds _ ff.q hq0
  · intro s hs
    cases hmi : algebra.ModInv a ff.q with
    | ok v =>
      simp only [algebra.FieldElement.Inv, hmi, Except.map] at hs
      cases hs
      exact algebra.ModInv_ok_bound hq0 hmi
    | error e' =>
      simp only [algebra.FieldElement.Inv, hmi, Except.map] at hs
      cases hs

/-- C1 witness: the amended theorem applied at the concrete field F5 with
a = 7, e = 3, x = 2, y = 9. -/
theorem field_ops_reduced_witness :
    (2 : Int) ≤ (⟨5⟩ : algebra.FiniteField).q ∧
    (algebra.reducedIn ⟨5⟩ (algebra.FiniteField.Zero ⟨5⟩) ∧
     algebra.reducedIn ⟨5⟩ (algebra.FiniteField.One ⟨5⟩) ∧
     algebra.reducedIn ⟨5⟩ (algebra.FiniteField.NewFieldElement ⟨5⟩ 7) ∧
     algebra.reducedIn ⟨5⟩ (algebra.FiniteField.Add ⟨5⟩ ⟨2, ⟨5⟩⟩ ⟨9, ⟨5⟩⟩) ∧
     algebra.reducedIn ⟨5⟩ (algebra.FiniteField.Sub ⟨5⟩ ⟨2, ⟨5⟩⟩ ⟨9, ⟨5⟩⟩) ∧
     algebra.reducedIn ⟨5⟩ (algebra.FiniteField.Mul ⟨5⟩ ⟨2, ⟨5⟩⟩ ⟨9, ⟨5⟩⟩) ∧
     (∀ r, algebra.FiniteField.Div ⟨5⟩ ⟨2, ⟨5⟩⟩ ⟨9, ⟨5⟩⟩ = Except.ok r →
        algebra.reducedIn ⟨5⟩ r) ∧
     algebra.reducedIn ⟨5⟩ (algebra.FieldElement.Neg ⟨7, ⟨5⟩⟩) ∧
     algebra.reducedIn ⟨5⟩ (algebra.FieldElement.Exp ⟨7, ⟨5⟩⟩ 3) ∧
     (∀ s, algebra.FieldElement.Inv ⟨7, ⟨5⟩⟩ = Except.ok s →
        algebra.reducedIn ⟨5⟩ s)) :=
  ⟨by decide, field_ops_reduced ⟨5⟩ (by decide) 7 3 ⟨2, ⟨5⟩⟩ ⟨9, ⟨5⟩⟩⟩

/-- C7 counterexample: no InvalidField failure occurs for operands of
different moduli.  With the receiver field F5, x = 1 in F5 and y = 3 in F7
(moduli 5 and 7 differ), Add, Sub and Mul return ordinary reduced elements
of F5 and Div succeeds with the reduced quotient, instead of failing with
InvalidField. -/
theorem ops_no_invalidfield_cex :
    (1 : Int) ≠ ((⟨3, ⟨7⟩⟩ : algebra.FieldElement).p.q - 2) ∧
    ((⟨2, ⟨5⟩⟩ : algebra.FieldElement).p.q ≠ (⟨3, ⟨7⟩⟩ : algebra.FieldElement).p.q) ∧
    algebra.FiniteField.Add ⟨5⟩ ⟨1, ⟨5⟩⟩ ⟨3, ⟨7⟩⟩ = ⟨4, ⟨5⟩⟩ ∧
    algebra.FiniteField.Sub ⟨5⟩ ⟨1, ⟨5⟩⟩ ⟨3, ⟨7⟩⟩ = ⟨3, ⟨5⟩⟩ ∧
    algebra.FiniteField.Mul ⟨5⟩ ⟨1, ⟨5⟩⟩ ⟨3, ⟨7⟩⟩ = ⟨3, ⟨5⟩⟩ ∧
    algebra.FiniteField.Div ⟨5⟩ ⟨1, ⟨5⟩⟩ ⟨3, ⟨7⟩⟩ = Except.ok ⟨2, ⟨5⟩⟩ ∧
    algebra.FiniteField.Div ⟨5⟩ ⟨1, ⟨5⟩⟩ ⟨3, ⟨7⟩⟩ ≠
      Except.error algebra.FFError.InvalidField :=
  ⟨by decide, by decide, by decide, by decide, by decide, rfl, fun h => nomatch h⟩

/-- C7 (amended): Add, Sub, Mul and Div perform no modulus-compatibility
check and never fail with InvalidField.  They combine the operands' stored
values and reduce by the receiver field's modulus, behaving identically
whether or not the operands' own moduli agree; the reduced result lies in
[0, q), and Div's only failure channel is NotInvertible. -/
theorem ops_ignore_moduli (ff : algebra.FiniteField) (hq : 0 < ff.q)
    (x y : algebra.FieldElement) :
    ff.Add x y = ff.NewFieldElement (x.n + y.n) ∧
    ff.Sub x y = ff.NewFieldElement (x.n - y.n) ∧
    ff.Mul x y = ff.NewFieldElement (x.n * y.n) ∧
    ff.Add x y = ff.Add ⟨x.n, ff⟩ ⟨y.n, ff⟩ ∧
    ff.Sub x y = ff.Sub ⟨x.n, ff⟩ ⟨y.n, ff⟩ ∧
    ff.Mul x y = ff.Mul ⟨x.n, ff⟩ ⟨y.n, ff⟩ ∧
    ff.Div x y = ff.Div ⟨x.n, ff⟩ ⟨y.n, ff⟩ ∧
    algebra.reducedIn ff (ff.Add x y) ∧
    algebra.reducedIn ff (ff.Sub x y) ∧
    algebra.reducedIn ff (ff.Mul x y) ∧
    (∀ r, ff.Div x y = Except.ok r → algebra.reducedIn ff r) ∧
    (∀ e, ff.Div x y = Except.error e → e = algebra.FFError.NotInvertible) := by
  have hb : ∀ z : Int, algebra.reducedIn ff (ff.NewFieldElement z) := fun z =>
    algebra.emod_bounds z ff.q hq
  have hmm : ∀ z : Int, algebra.Mod z ff.q % ff.q = algebra.Mod z ff.q := fun z =>
    Int.emod_emod_of_dvd z dvd_rfl
  refine ⟨?_, ?_, ?_, rfl, rfl, rfl, rfl, hb _, hb _, hb _, ?_, ?_⟩
  · show (⟨(x.n + y.n) % ff.q % ff.q, ff⟩ : algebra.FieldElement) = ⟨(x.n + y.n) % ff.q, ff⟩
    rw [Int.emod_emod_of_dvd _ dvd_rfl]
  · show (⟨(x.n - y.n) % ff.q % ff.q, ff⟩ : algebra.FieldElement) = ⟨(x.n - y.n) % ff.q, ff⟩
    rw [Int.emod_emod_of_dvd _ dvd_rfl]
  · show (⟨(x.n * y.n) % ff.q % ff.q, ff⟩ : algebra.FieldElement) = ⟨(x.n * y.n) % ff.q, ff⟩
    rw [Int.emod_emod_of_dvd _ dvd_rfl]
  · intro r hr
    cases hmd : algebra.ModDiv x.n y.n ff.q with
    | ok v =>
      simp only [algebra.FiniteField.Div, hmd, Except.map] at hr
      cases hr
      exact hb v
    | error e' =>
      simp only [algebra.FiniteField.Div, hmd, Except.map] at hr
      cases hr
  · intro e he
    cases hmi : algebra.ModInv y.n ff.q with
    | ok v =>
      simp only [algebra.FiniteField.Div, algebra.ModDiv, hmi, Except.map] at he
      cases he
    | error e' =>
      simp only [algebra.FiniteField.Div, algebra.ModDiv, hmi, Except.map] at he
      cases he
      revert hmi
      unfold algebra.ModInv
      split
      · intro h
        cases h
      · intro h
        cases h
        rfl

/-- C7 witness: the amended theorem applied at F5 with operands of
different moduli (x = 1 in F5, y = 3 in F7), together with the concrete
successful quotient. -/
theorem ops_ignore_moduli_witness :
    (0 : Int) < (⟨5⟩ : algebra.FiniteField).q ∧
    algebra.FiniteField.Add ⟨5⟩ ⟨1, ⟨5⟩⟩ ⟨3, ⟨7⟩⟩ =
      algebra.FiniteField.NewFieldElement ⟨5⟩ (1 + 3) ∧
    (∀ r, algebra.FiniteField.Div ⟨5⟩ ⟨1, ⟨5⟩⟩ ⟨3, ⟨7⟩⟩ = Except.ok r →
      algebra.reducedIn ⟨5⟩ r) :=
  ⟨by decide,
   (ops_ignore_moduli ⟨5⟩ (by decide) ⟨1, ⟨5⟩⟩ ⟨3, ⟨7⟩⟩).1,
   (ops_ignore_moduli ⟨5⟩ (by decide) ⟨1, ⟨5⟩⟩ ⟨3, ⟨7⟩⟩).2.2.2.2.2.2.2.2.2.2.1⟩

/-- C8: with a prime modulus p, inverting the zero element fails with
NotInvertible, dividing by the zero element fails with NotInvertible, and
inverting any nonzero reduced element succeeds. -/
theorem inv_zero_notinvertible (p : Nat) (hp : p.Prime) (a : Int) (x : algebra.FieldElement) :
    algebra.FieldElement.Inv ⟨0, ⟨(p : Int)⟩⟩ = Except.error algebra.FFError.NotInvertible ∧
    algebra.FiniteField.Div ⟨(p : Int)⟩ x ⟨0, ⟨(p : Int)⟩⟩ =
      Except.error algebra.FFError.NotInvertible ∧
    (0 < a → a < (p : Int) → ∃ r, algebra.FieldElement.Inv ⟨a, ⟨(p : Int)⟩⟩ = Except.ok r) := by
  have hq1 : (1 : Int) < (p : Int) := by exact_mod_cast hp.one_lt
  refine ⟨?_, ?_, ?_⟩
  · show (algebra.ModInv 0 (p : Int)).map _ = _
    rw [algebra.ModInv_zero hq1]
    rfl
  · show (algebra.ModDiv x.n 0 (p : Int)).map _ = _
    unfold algebra.ModDiv
    rw [algebra.ModInv_zero hq1]
    rfl
  · intro h0 h1
    obtain ⟨v, hv⟩ := algebra.ModInv_pos_ok hp h0 h1
    refine ⟨⟨v, ⟨(p : Int)⟩⟩, ?_⟩
    show (algebra.ModInv a (p : Int)).map _ = _
    rw [hv]
    rfl

/-- C8 witness: the theorem applied at p = 5 with a = 2 and x = 1 in F5. -/
theorem inv_zero_notinvertible_witness :
    Nat.Prime 5 ∧
    (algebra.FieldElement.Inv ⟨0, ⟨((5 : Nat) : Int)⟩⟩ =
        Except.error algebra.FFError.NotInvertible ∧
     algebra.FiniteField.Div ⟨((5 : Nat) : Int)⟩ ⟨1, ⟨((5 : Nat) : Int)⟩⟩
        ⟨0, ⟨((5 : Nat) : Int)⟩⟩ = Except.error algebra.FFError.NotInvertible ∧
     (0 < (2 : Int) → (2 : Int) < ((5 : Nat) : Int) →
        ∃ r, algebra.FieldElement.Inv ⟨2, ⟨((5 : Nat) : Int)⟩⟩ = Except.ok r)) :=
  ⟨by norm_num, inv_zero_notinvertible 5 (by norm_num) 2 ⟨1, ⟨((5 : Nat) : Int)⟩⟩⟩

/-- C10: for a positive modulus, NewFieldElement and
NewFieldElementFromInt64 store the canonical nonnegative representative of
the input mod q, lying in [0, q) and congruent to the input; Neg of any
element stores the canonical representative of the negated value, again in
[0, q). -/
theorem newFieldElement_canonical (ff : algebra.FiniteField) (hq : 0 < ff.q) (x a : Int) :
    (0 ≤ (ff.NewFieldElement x).n ∧ (ff.NewFieldElement x).n < ff.q ∧
      (ff.NewFieldElement x).n ≡ x [ZMOD ff.q]) ∧
    (0 ≤ (ff.NewFieldElementFromInt64 x).n ∧ (ff.NewFieldElementFromInt64 x).n < ff.q ∧
      (ff.NewFieldElementFromInt64 x).n ≡ x [ZMOD ff.q]) ∧
    (0 ≤ (algebra.FieldElement.Neg ⟨a, ff⟩).n ∧ (algebra.FieldElement.Neg ⟨a, ff⟩).n < ff.q ∧
      (algebra.FieldElement.Neg ⟨a, ff⟩).n ≡ -a [ZMOD ff.q]) := by
  have hmd : ∀ z : Int, (z % ff.q) ≡ z [ZMOD ff.q] := fun z =>
    Int.emod_emod_of_dvd z dvd_rfl
  have hbo : ∀ z : Int, 0 ≤ z % ff.q ∧ z % ff.q < ff.q := fun z =>
    algebra.emod_bounds z ff.q hq
  exact ⟨⟨(hbo x).1, (hbo x).2, hmd x⟩, ⟨(hbo x).1, (hbo x).2, hmd x⟩,
    ⟨(hbo (-a)).1, (hbo (-a)).2, hmd (-a)⟩⟩

/-- C10 witness: the theorem applied at the field F7 with x = -10 and
a = 3, together with the concrete reduced value 4 of -10 mod 7. -/
theorem newFieldElement_canonical_witness :
    (0 : Int) < (⟨7⟩ : algebra.FiniteField).q ∧
    algebra.FiniteField.NewFieldElement ⟨7⟩ (-10) = ⟨4, ⟨7⟩⟩ ∧
    (0 ≤ (algebra.FiniteField.NewFieldElement ⟨7⟩ (-10)).n ∧
      (algebra.FiniteField.NewFieldElement ⟨7⟩ (-10)).n < (⟨7⟩ : algebra.FiniteField).q ∧
      (algebra.FiniteField.NewFieldElement ⟨7⟩ (-10)).n ≡ -10 [ZMOD (⟨7⟩ : algebra.FiniteField).q]) ∧
    (0 ≤ (algebra.FieldElement.Neg ⟨3, ⟨7⟩⟩).n ∧
      (algebra.FieldElement.Neg ⟨3, ⟨7⟩⟩).n < (⟨7⟩ : algebra.FiniteField).q ∧
      (algebra.FieldElement.Neg ⟨3, ⟨7⟩⟩).n ≡ -3 [ZMOD (⟨7⟩ : algebra.FiniteField).q]) :=
  ⟨by decide, by decide,
   (newFieldElement_canonical ⟨7⟩ (by decide) (-10) 3).1,
   (newFieldElement_canonical ⟨7⟩ (by decide) (-10) 3).2.2⟩

namespace poly

/-- Every coefficient produced by addCoeffs is an Euclidean remainder, so
it lies in [0, q) for a positive modulus. -/
theorem addCoeffs_reduced (q : Int) (hq : 0 < q) : ∀ a b : List Int, Reduced q (addCoeffs q a b) := by
  have hmap : ∀ l : List Int, Reduced q (l.map fun y => y % q) := by
    intro l c hc
    obtain ⟨y, _, hy⟩ := List.mem_map.mp hc
    rw [← hy]
    exact algebra.emod_bounds y q hq
  intro a
  induction a with
  | nil =>
    intro b
    exact hmap b
  | cons x xs ih =>
    intro b
    cases b with
    | nil =>
      intro c hc
      rcases List.mem_cons.mp hc with h | h
      · rw [h]
        exact algebra.emod_bounds x q hq
      · exact hmap xs c h
    | cons y ys =>
      intro c hc
      rcases List.mem_cons.mp hc with h | h
      · rw [h]
        exact algebra.emod_bounds (x + y) q hq
      · exact ih ys c h

/-- Every coefficient produced by mulCoeffs lies in [0, q) for a positive
modulus. -/
theorem mulCoeffs_reduced (q : Int) (hq : 0 < q) (a b : List Int) :
    Reduced q (mulCoeffs q a b) := by
  cases a with
  | nil =>
    intro c hc
    cases hc
  | cons x xs =>
    exact addCoeffs_reduced q hq _ _

/-- Trimming keeps every coefficient in [0, q). -/
theorem trim_reduced (q : Int) (hq : 0 < q) {l : List Int} (h : Reduced q l) :
    Reduced q (trim l) := by
  simp only [trim]
  split
  · intro c hc
    rcases List.mem_cons.mp hc with h' | h'
    · rw [h']
      exact ⟨le_refl 0, hq⟩
    · cases h'
  · intro c hc
    apply h
    have h1 : c ∈ List.dropWhile (fun c => c == 0) l.reverse := List.mem_reverse.mp hc
    have h2 : c ∈ l.reverse := (List.dropWhile_sublist _).subset h1
    exact List.mem_reverse.mp h2

/-- Dropping a prefix by a predicate twice is the same as dropping once. -/
theorem dropWhile_dropWhile (p : Int → Bool) : ∀ l : List Int,
    List.dropWhile p (List.dropWhile p l) = List.dropWhile p l := by
  intro l
  induction l with
  | nil => rfl
  | cons a t ih =>
    by_cases hpa : p a
    · rw [List.dropWhile_cons_of_pos hpa]
      exact ih
    · rw [List.dropWhile_cons_of_neg (by simpa using hpa)]
      rw [List.dropWhile_cons_of_neg (by simpa using hpa)]

/-- Trimming is idempotent. -/
theorem trim_trim (l : List Int) : trim (trim l) = trim l := by
  simp only [trim]
  by_cases h : (l.reverse.dropWhile fun c => c == 0).reverse = []
  · rw [if_pos h]
    rfl
  · rw [if_neg h]
    have h2 : ((l.reverse.dropWhile fun c => c == 0).reverse.reverse.dropWhile
        fun c => c == 0).reverse = (l.reverse.dropWhile fun c => c == 0).reverse := by
      rw [List.reverse_reverse, dropWhile_dropWhile]
    rw [h2, if_neg h]

/-- The trim of any list is nonempty. -/
theorem trim_ne_nil (l : List Int) : trim l ≠ [] := by
  simp only [trim]
  split
  · simp
  · assumption

/-- A list of reduced coefficients is unchanged by a final reduction. -/
theorem map_emod_id (q : Int) : ∀ {l : List Int}, Reduced q l →
    (l.map fun y => y % q) = l := by
  intro l
  induction l with
  | nil => intro _; rfl
  | cons x xs ih =>
    intro h
    have hx := h x (List.mem_cons_self x xs)
    have hxs : Reduced q xs := fun c hc => h c (List.mem_cons_of_mem x hc)
    simp only [List.map_cons, ih hxs]
    rw [Int.emod_eq_of_lt hx.1 hx.2]

/-- Adding the zero polynomial [0] on the left leaves a canonical reduced
polynomial unchanged. -/
theorem Polynomial.Add_zero_left (q : Int) {p : Polynomial}
    (hred : Reduced q p) (htrim : trim p = p) :
    Polynomial.Add (NewPolynomialInts 0) p q = p := by
  have hne : p ≠ [] := htrim ▸ trim_ne_nil p
  cases p with
  | nil => exact absurd rfl hne
  | cons y ys =>
    have hy := hred y (List.mem_cons_self y ys)
    have hys : Reduced q ys := fun c hc => hred c (List.mem_cons_of_mem y hc)
    have hstep : addCoeffs q (NewPolynomialInts 0) (y :: ys) = y :: ys := by
      show ((0 + y) % q) :: (ys.map fun y' => y' % q) = y :: ys
      rw [zero_add, Int.emod_eq_of_lt hy.1 hy.2, map_emod_id q hys]
    show trim (addCoeffs q (NewPolynomialInts 0) (y :: ys)) = y :: ys
    rw [hstep, htrim]

/-- The product polynomial is coefficient-wise reduced. -/
theorem Polynomial.Mul_reduced (q : Int) (hq : 0 < q) (p r : Polynomial) :
    Reduced q (Polynomial.Mul p r q) :=
  trim_reduced q hq (mulCoeffs_reduced q hq p r)

/-- The product polynomial is canonical (trim-stable). -/
theorem Polynomial.Mul_trimmed (q : Int) (p r : Polynomial) :
    trim (Polynomial.Mul p r q) = Polynomial.Mul p r q :=
  trim_trim (mulCoeffs q p r)

end poly

/-- C4: the composition polynomial built by the prover loop equals
b0*c1 + b1*c2 + b2*c3, where b0, b1, b2 are the field elements squeezed
from the channel in exactly that order (the nesting of RandFE shows each
beta is drawn from the channel state left by the previous squeeze,
immediately before constraint i is combined). -/
theorem composition_poly_linear (H : List Nat → List Nat) (q : Int) (hq : 0 < q)
    (c1 c2 c3 : poly.Polynomial) (ch : stark.Channel) :
    (stark.compositionLoop H q [c1, c2, c3] ch).1 =
      poly.Polynomial.Add
        (poly.Polynomial.Add
          (poly.Polynomial.Mul c1 (poly.NewPolynomialBigInt (ch.RandFE H q).1) q)
          (poly.Polynomial.Mul c2
            (poly.NewPolynomialBigInt (((ch.RandFE H q).2).RandFE H q).1) q) q)
        (poly.Polynomial.Mul c3
          (poly.NewPolynomialBigInt ((((ch.RandFE H q).2).RandFE H q).2.RandFE H q).1) q) q := by
  have hz : poly.Polynomial.Add (poly.NewPolynomialInts 0)
      (poly.Polynomial.Mul c1 (poly.NewPolynomialBigInt (ch.RandFE H q).1) q) q =
      poly.Polynomial.Mul c1 (poly.NewPolynomialBigInt (ch.RandFE H q).1) q :=
    poly.Polynomial.Add_zero_left q
      (poly.Polynomial.Mul_reduced q hq c1 _)
      (poly.Polynomial.Mul_trimmed q c1 _)
  simp only [stark.compositionLoop, List.foldl_cons, List.foldl_nil]
  rw [hz]

/-- C4 witness: the theorem applied with a concrete hash function, the
modulus 5, three concrete constraint polynomials and the fresh channel. -/
theorem composition_poly_linear_witness :
    (0 : Int) < 5 ∧
    (stark.compositionLoop (fun l => [l.length % 7]) 5
        [[1, 2], [3], [0, 0, 1]] stark.NewChannel).1 =
      poly.Polynomial.Add
        (poly.Polynomial.Add
          (poly.Polynomial.Mul [1, 2]
            (poly.NewPolynomialBigInt
              (stark.Channel.RandFE (fun l => [l.length % 7]) stark.NewChannel 5).1) 5)
          (poly.Polynomial.Mul [3]
            (poly.NewPolynomialBigInt
              (((stark.Channel.RandFE (fun l => [l.length % 7]) stark.NewChannel 5).2).RandFE
                (fun l => [l.length % 7]) 5).1) 5) 5)
        (poly.Polynomial.Mul [0, 0, 1]
          (poly.NewPolynomialBigInt
            ((((stark.Channel.RandFE (fun l => [l.length % 7]) stark.NewChannel 5).2).RandFE
                (fun l => [l.length % 7]) 5).2.RandFE (fun l => [l.length % 7]) 5).1) 5) 5 :=
  ⟨by decide,
   composition_poly_linear (fun l => [l.length % 7]) 5 (by decide)
     [1, 2] [3] [0, 0, 1] stark.NewChannel⟩

/-- C5: two channels created in the initial all-zero state and driven by
the same call sequence agree, after every prefix of the sequence, on the
full channel value (rolling state and proof log) and on every squeezed
value, for any hash function H standing for SHA-256. -/
theorem channel_deterministic (H : List Nat → List Nat) (cs : List stark.ChannelCall)
    (ch1 ch2 : stark.Channel) (h1 : ch1 = stark.NewChannel) (h2 : ch2 = stark.NewChannel) :
    ∀ k : Nat, stark.runCalls H ch1 (cs.take k) = stark.runCalls H ch2 (cs.take k) := by
  intro k
  rw [h1, h2]

/-- C5 witness: the theorem applied to a concrete hash function and the
call sequence Send [1,2]; ReceiveRandomFieldElement 5, taken at k = 2. -/
theorem channel_deterministic_witness :
    stark.NewChannel = stark.NewChannel ∧
    stark.runCalls (fun l => [l.length]) stark.NewChannel
        ([stark.ChannelCall.send [1, 2], stark.ChannelCall.receiveFE 5].take 2) =
      stark.runCalls (fun l => [l.length]) stark.NewChannel
        ([stark.ChannelCall.send [1, 2], stark.ChannelCall.receiveFE 5].take 2) :=
  ⟨rfl,
   channel_deterministic (fun l => [l.length])
     [stark.ChannelCall.send [1, 2], stark.ChannelCall.receiveFE 5]
     stark.NewChannel stark.NewChannel rfl rfl 2⟩

/-- C6: at the reference size of 10 FRI folds, the main prover pipeline
(src/unnamed/part_000) never Sends the composition root R0 (tag 1): its
channel trace has no send-1 event at all, and the event at index 4 (the
first event of GenerateFRICommitment) is already the first FRI beta
squeeze.  The test pipeline (src/unnamed/part_001) Sends R0 (inside its
first five events) strictly before its first FRI beta squeeze at index 5,
as the claim requires. -/
theorem main_omits_root_send :
    stark.ChEvent.send 1 ∉ stark.mainChannelEvents 10 ∧
    (stark.mainChannelEvents 10).take 4 = stark.mainPreFriEvents ∧
    (stark.mainChannelEvents 10).get? 4 = some stark.ChEvent.squeezeFE ∧
    stark.ChEvent.send 1 ∈ (stark.testChannelEvents 10).take 5 ∧
    (stark.testChannelEvents 10).get? 5 = some stark.ChEvent.squeezeFE := by
  decide
